import Mathlib

/-!
# Verification of the FLUTE FedLabels aggregation strategy and rank-0 orchestration

Shallow embedding of `src/core/strategies/fedlabels.py` and the rank-0
server-setup block of `src/e2e_trainer.py`.

Modelling conventions:
* A tensor is modelled by its value at one (arbitrary, fixed) coordinate, as a
  rational number `ℚ`; every operation the source performs on tensors
  (`+`, `* ratio`, `/2`, `.to(cpu)`) is coordinatewise, so `ℚ` per tensor is a
  faithful pointwise semantics with exact arithmetic.
* A Python `dict` (insertion-ordered, string keys) is an association list
  `List (String × ℚ)`; `d[k] = v` is `dictSet` (update in place or append),
  `d[k] += v` is `dictAdd` (KeyError when `k` is absent).
* A Python exception is a `PyErr` value.  Operations that can raise return an
  `Except PyErr α` together with the (possibly partially mutated) strategy
  state, because a Python exception leaves earlier in-place mutations visible.
-/

set_option maxHeartbeats 1000000

/-- Python exceptions relevant to the embedded code.  The repository defines
no exception classes of its own (in particular no `AggregationError`):
`fedlabels.py` raises only `RuntimeError` explicitly, and the built-in
`IndexError` / `KeyError` / `ZeroDivisionError` / `TypeError` can arise from
its list / dict / arithmetic operations and call-arity mistakes. -/
inductive PyErr where
  | runtimeError (msg : String)
  | indexError
  | keyError
  | zeroDivisionError
  | typeError
  deriving DecidableEq, Repr

/-- The `mode` argument of the `FedLabels` constructor: any other string
raises `ValueError` at construction, so live instances have one of these. -/
inductive Mode where
  | client
  | server
  deriving DecidableEq, Repr

/-- `fedlabels.py` line 108: message of the server-only role error. -/
def serverOnlyMsg : String := "this method can only be invoked by the server"

/-- `fedlabels.py` line 76: message of the client-only role error. -/
def clientOnlyMsg : String := "this method can only be invoked by the client"

/-- A Python dict `{str: tensor}` in insertion order. -/
abbrev Dict := List (String × ℚ)

/-- Dict lookup `d[key]` as an `Option` (first matching key). -/
def dictLookup : Dict → String → Option ℚ
  | [], _ => none
  | (k, v) :: rest, key => if k = key then some v else dictLookup rest key

/-- Python `d[key] = val`: replace in place if present, else append. -/
def dictSet : Dict → String → ℚ → Dict
  | [], key, val => [(key, val)]
  | (k, v) :: rest, key, val =>
    if k = key then (key, val) :: rest else (k, v) :: dictSet rest key val

/-- Python `d[key] += val`: `KeyError` when the key is absent. -/
def dictAdd : Dict → String → ℚ → Except PyErr Dict
  | [], _, _ => .error .keyError
  | (k, v) :: rest, key, val =>
    if k = key then .ok ((k, v + val) :: rest)
    else (dictAdd rest key val).map (fun d => (k, v) :: d)

/-- Decidable equality of `Except` results, so that concrete runs of the
embedding can be checked by `decide`. -/
instance {ε α : Type} [DecidableEq ε] [DecidableEq α] : DecidableEq (Except ε α) := fun a b =>
  match a, b with
  | .error x, .error y => if h : x = y then .isTrue (by simp [h]) else .isFalse (by simp [h])
  | .error _, .ok _ => .isFalse (by simp)
  | .ok _, .error _ => .isFalse (by simp)
  | .ok x, .ok y => if h : x = y then .isTrue (by simp [h]) else .isFalse (by simp [h])

/-- `utils.to_device`: moves a tensor between devices; the identity on the
tensor's value. -/
def to_device (x : ℚ) : ℚ := x

/-- A client payload (`fedlabels.py` lines 88-90): a weight and the
concatenated supervised + unsupervised gradient list. -/
structure FLPayload where
  weight : ℚ
  gradients : List ℚ
  deriving DecidableEq, Repr

/-- The mutable server-side state of a `FedLabels` instance:
`self.client_parameters_stack`, `self.client_weights` and the global model
held by `worker_trainer.model` (its `state_dict`). -/
structure FLState where
  client_parameters_stack : List (List ℚ)
  client_weights : List ℚ
  model : Dict
  deriving DecidableEq, Repr

/-- The client-side trainer collaborator (spec §6): `num_samples`,
`algo_computation` (the unsupervised dict), `model.state_dict()`, and the
externally-defined mutators `reset_gradient_power` /
`estimate_sufficient_stats`, whose effect on the trainer is recorded in an
opaque event log (their semantics live outside this repository). -/
structure Trainer where
  num_samples : ℚ
  algo_computation : Dict
  state_dict : Dict
  effect_log : List String
  deriving DecidableEq, Repr

/-- External trainer mutator `trainer.reset_gradient_power()`. -/
def reset_gradient_power (t : Trainer) : Trainer :=
  { t with effect_log := t.effect_log ++ ["reset_gradient_power"] }

/-- External trainer mutator `trainer.estimate_sufficient_stats()`. -/
def estimate_sufficient_stats (t : Trainer) : Trainer :=
  { t with effect_log := t.effect_log ++ ["estimate_sufficient_stats"] }

/-- The loop body of `aggregate_gradients_inplace` (`fedlabels.py` lines
229-233) over the zipped `(key, value)` pairs: with `first` set the entry is
overwritten with `to_device value * ratio`, otherwise `to_device value *
ratio` is added to the existing entry (`KeyError` when absent).  `first` is
never reassigned inside the Python loop, so it is constant here. -/
def agg_pairs (first : Bool) (ratio : ℚ) : List (String × ℚ) → Dict → Except PyErr Dict
  | [], tmp => .ok tmp
  | (k, v) :: rest, tmp =>
    if first then agg_pairs first ratio rest (dictSet tmp k (to_device v * ratio))
    else (dictAdd tmp k (to_device v * ratio)).bind (agg_pairs first ratio rest)

/-- `aggregate_gradients_inplace(keys, values, first, tmp, ratio)`
(`fedlabels.py` lines 218-235): folds `zip(keys, values)` into `tmp` and
returns `(False, tmp)`. -/
def aggregate_gradients_inplace (keys : List String) (values : List ℚ) (first : Bool)
    (tmp : Dict) (ratio : ℚ) : Except PyErr (Bool × Dict) :=
  (agg_pairs first ratio (keys.zip values) tmp).map (fun d => (false, d))

/-- The supervised aggregation loop (`fedlabels.py` lines 204-205): fold every
client's (first-half) parameter list into `tmp` with the single ratio
`ratio_sup`, threading the `first` flag returned by each call. -/
def fold_sup (keys : List String) (ratio : ℚ) : List (List ℚ) → Bool → Dict → Except PyErr Dict
  | [], _, tmp => .ok tmp
  | cp :: rest, first, tmp =>
    (aggregate_gradients_inplace keys cp first tmp ratio).bind
      (fun fd => fold_sup keys ratio rest fd.1 fd.2)

/-- The unsupervised aggregation loop (`fedlabels.py` lines 209-210): fold
every client's (second-half) list with its own ratio `ratio_unsup[j]`;
`numpy` indexing past the end of the ratio array raises `IndexError`. -/
def fold_unsup (keys : List String) : List (List ℚ) → List ℚ → Bool → Dict → Except PyErr Dict
  | [], _, _, tmp => .ok tmp
  | _ :: _, [], _, _ => .error .indexError
  | cp :: rest, r :: rrest, first, tmp =>
    (aggregate_gradients_inplace keys cp first tmp r).bind
      (fun fd => fold_unsup keys rest rrest fd.1 fd.2)

/-- `FedLabels._aggregate_gradients` (`fedlabels.py` lines 170-216) for a
server instance.  Reading `self.client_parameters_stack[0]` on an empty stack
raises `IndexError`; `1/len(client_weights)` on an empty weight list raises
`ZeroDivisionError`.  With `aggregate_fast` set the two folds are skipped (the
dicts stay empty).  Lines 212-214 clear both accumulators before returning —
but only when control reaches them; an exception inside a fold leaves the
accumulators untouched.  `num_clients_curr_iter` is received but unused in the
source and is therefore not a parameter here. -/
def aggregate_grads (aggregate_fast : Bool) (st : FLState) :
    Except PyErr (ℚ × Dict × Dict) × FLState :=
  match st.client_parameters_stack.head? with
  | none => (.error .indexError, st)
  | some c0 =>
    let sup_slice := c0.length / 2
    let keys := st.model.map Prod.fst
    let model_dicts := st.client_parameters_stack.map (List.take sup_slice)
    let unsup_dicts := st.client_parameters_stack.map (List.drop sup_slice)
    let weight_sum := st.client_weights.sum
    if st.client_weights.length = 0 then (.error .zeroDivisionError, st)
    else
      let ratio_sup : ℚ := 1 / (st.client_weights.length : ℚ)
      let ratio_unsup : List ℚ := st.client_weights.map (fun w => w / weight_sum)
      if aggregate_fast then
        (.ok (weight_sum, [], []),
         { st with client_parameters_stack := [], client_weights := [] })
      else
        match fold_sup keys ratio_sup model_dicts true [] with
        | .error e => (.error e, st)
        | .ok tmp_sup =>
          match fold_unsup keys unsup_dicts ratio_unsup true [] with
          | .error e => (.error e, st)
          | .ok tmp_unsup =>
            (.ok (weight_sum, tmp_sup, tmp_unsup),
             { st with client_parameters_stack := [], client_weights := [] })

/-- The disjoint-aggregation loop of `combine_payloads` (`fedlabels.py` lines
146-148): `tmp_both[k] = tmp_sup[k]/2 + tmp_unsup[k]/2` for `k` ranging over
`tmp_unsup.keys()`; `tmp_sup[k]` raises `KeyError` when absent. -/
def build_tmp_both (tmp_sup : Dict) : Dict → Except PyErr Dict
  | [] => .ok []
  | (k, uv) :: rest =>
    match dictLookup tmp_sup k with
    | none => .error .keyError
    | some sv => (build_tmp_both tmp_sup rest).map (fun d => (k, sv / 2 + uv / 2) :: d)

/-- `FedLabels.generate_client_payload` (`fedlabels.py` lines 60-92).
Raises the client-only `RuntimeError` unless `mode == client`.  When
`stats_on_smooth_grad` is set it first calls `trainer.reset_gradient_power()`
then `trainer.estimate_sufficient_stats()`.  The payload's weight is
`1 if trainer.num_samples == 0 else trainer.num_samples` and its gradient
list is the CPU copies of the supervised `state_dict` tensors followed by the
unsupervised `algo_computation` tensors. -/
def generate_client_payload (mode : Mode) (stats_on_smooth_grad : Bool) (trainer : Trainer) :
    Except PyErr FLPayload × Trainer :=
  if mode ≠ .client then (.error (.runtimeError clientOnlyMsg), trainer)
  else
    let trainer :=
      if stats_on_smooth_grad then estimate_sufficient_stats (reset_gradient_power trainer)
      else trainer
    let weight : ℚ := if trainer.num_samples = 0 then 1 else trainer.num_samples
    let unsup_grads := trainer.algo_computation.map (fun kv => to_device kv.2)
    let sup_grads := trainer.state_dict.map (fun kv => to_device kv.2)
    (.ok { weight := weight, gradients := sup_grads ++ unsup_grads }, trainer)

/-- `FedLabels.process_individual_payload` (`fedlabels.py` lines 94-118).
Raises the server-only `RuntimeError` unless `mode == server`; returns `False`
when `payload['weight'] == 0.0` (before any mutation); otherwise appends the
weight and then either buffers the gradients (`aggregate_fast` unset) or —
`aggregate_fast` set — calls `aggregate_gradients_inplace(worker_trainer.model,
payload['gradients'])`, passing 2 arguments to a function of 5 required
parameters, which raises `TypeError` (the weight append has already
happened). -/
def process_individual_payload (mode : Mode) (aggregate_fast : Bool) (st : FLState)
    (payload : FLPayload) : Except PyErr Bool × FLState :=
  if mode ≠ .server then (.error (.runtimeError serverOnlyMsg), st)
  else if payload.weight = 0 then (.ok false, st)
  else
    let st1 := { st with client_weights := st.client_weights ++ [payload.weight] }
    if aggregate_fast then (.error .typeError, st1)
    else
      (.ok true,
       { st1 with
           client_parameters_stack := st1.client_parameters_stack ++ [payload.gradients] })

/-- `FedLabels.combine_payloads` (`fedlabels.py` lines 120-168).  Raises the
server-only `RuntimeError` unless `mode == server`; runs
`_aggregate_gradients`; builds `tmp_both` and loads it into the model
(`load_state_dict`, modelled as replacing the model dict — the model-update
sink is an external collaborator, spec §6); then, unless `skip_model_update`,
runs the external `update_model` / `run_lr_scheduler` step whose outcome
(losses, or an exception) is supplied as `updateOutcome`.  The
`dump_norm_stats` diagnostic path (clone + file append, default off) has no
effect on the returned state and is omitted; `curr_iter`,
`num_clients_curr_iter`, `total_clients` and `client_stats` are unused by the
aggregation and are not parameters here. -/
def combine_payloads (mode : Mode) (aggregate_fast : Bool) (skip_model_update : Bool)
    (updateOutcome : Except PyErr ℚ) (st : FLState) : Except PyErr (Option ℚ) × FLState :=
  if mode ≠ .server then (.error (.runtimeError serverOnlyMsg), st)
  else
    match aggregate_grads aggregate_fast st with
    | (.error e, st2) => (.error e, st2)
    | (.ok (_ws, tmp_sup, tmp_unsup), st2) =>
      match build_tmp_both tmp_sup tmp_unsup with
      | .error e => (.error e, st2)
      | .ok tmp_both =>
        let st3 := { st2 with model := tmp_both }
        if skip_model_update then (.ok none, st3)
        else
          match updateOutcome with
          | .error e => (.error e, st3)
          | .ok losses => (.ok (some losses), st3)

/-- Run `process_individual_payload` over a list of payloads in order,
threading the strategy state (the server's collection loop). -/
def processAll (mode : Mode) (aggregate_fast : Bool) (st : FLState) :
    List FLPayload → FLState
  | [] => st
  | p :: rest =>
    processAll mode aggregate_fast (process_individual_payload mode aggregate_fast st p).2 rest

/-- One server round over a fresh strategy state: process every payload, then
combine.  `model0` is the global model's state dict at round start. -/
def runRound (aggregate_fast : Bool) (updateOutcome : Except PyErr ℚ) (model0 : Dict)
    (payloads : List FLPayload) : Except PyErr (Option ℚ) × FLState :=
  combine_payloads .server aggregate_fast false updateOutcome
    (processAll .server aggregate_fast ⟨[], [], model0⟩ payloads)

/-- The statements of the rank-0 `try` block of `run_worker`
(`e2e_trainer.py` lines 118-161), in program order.  The local name `server`
is bound only by the successful completion of `serverConstruct`
(`server = server_setup(...)`, lines 144-155); `logProps`
(`log_run_properties(config)`, line 156) runs after that binding. -/
inductive SetupStep where
  | dataPrep
  | dataloaders
  | makeOptimizer
  | loadPretrained
  | serverConstruct
  | logProps
  deriving DecidableEq, Repr

/-- Position of a setup step in the `try` block, for "before the `server`
binding" comparisons. -/
def SetupStep.pos : SetupStep → Nat
  | .dataPrep => 0
  | .dataloaders => 1
  | .makeOptimizer => 2
  | .loadPretrained => 3
  | .serverConstruct => 4
  | .logProps => 5

/-- Observable outcome of the rank-0 setup block: whether
`server.terminate_workers()` was executed, and which exception (if any)
propagates to the top-level caller. -/
structure Rank0Outcome where
  terminate_executed : Bool
  propagated : Option String
  deriving DecidableEq, Repr

/-- The rank-0 branch of `run_worker` (`e2e_trainer.py` lines 118-164),
parametrised by the first statement of the `try` block to raise (`none` when
setup succeeds).  The `except Exception` handler (lines 158-161) evaluates
`server.terminate_workers()` and then re-raises; but `server` is a local name
bound only by a completed `server = server_setup(...)`, so when the failing
statement is at or before `serverConstruct` the handler itself raises
`UnboundLocalError` — `terminate_workers` is never executed and
`UnboundLocalError` is the exception that propagates. -/
def run_worker_rank0 (failAt : Option SetupStep) : Rank0Outcome :=
  match failAt with
  | none => { terminate_executed := false, propagated := none }
  | some s =>
    if s.pos ≤ SetupStep.serverConstruct.pos then
      { terminate_executed := false, propagated := some "UnboundLocalError" }
    else
      { terminate_executed := true, propagated := some "original exception" }


/-- Weighted pointwise sum at coordinate `i`: the value that folding client
tensor lists `cs` with per-client ratios `rs` accumulates at the `i`-th key. -/
def wsum (cs : List (List ℚ)) (rs : List ℚ) (i : Nat) : ℚ :=
  ((cs.zip rs).map (fun p => p.1.getD i 0 * p.2)).sum

/-- The list of `wsum` values over the first `K` coordinates. -/
def wsumList (cs : List (List ℚ)) (rs : List ℚ) (K : Nat) : List ℚ :=
  (List.range K).map (fun i => wsum cs rs i)

/-- Iterative form of the weighted accumulation performed by the folds:
one `zipWith` step per client. -/
def accumWeighted : List (List ℚ) → List ℚ → List ℚ → List ℚ
  | [], _, vs => vs
  | _ :: _, [], vs => vs
  | c :: cs, r :: rs, vs => accumWeighted cs rs (List.zipWith (fun s v => s + v * r) vs c)

/-- The value `combine_payloads` computes at the `i`-th model key for the
accepted payloads `ps` over a `K`-key model: the supervised half folded with
the uniform ratio `1/n`, the unsupervised half with normalized weights, then
blended half-and-half. -/
def fedlabelsValue (ps : List FLPayload) (K : Nat) (i : Nat) : ℚ :=
  wsum (ps.map (fun p => p.gradients.take K))
      (List.replicate ps.length (1 / (ps.length : ℚ))) i / 2 +
  wsum (ps.map (fun p => p.gradients.drop K))
      (ps.map (fun p => p.weight / (ps.map FLPayload.weight).sum)) i / 2

/-! ## Claims settled by direct evaluation of the embedding -/

/-- C4: a server-only method called on a `client`-mode strategy raises the
`RuntimeError` role error (and does not silently no-op: the state is returned
exactly as received alongside the error), and `generate_client_payload` on a
`server`-mode strategy raises the client-only role error. -/
theorem fedlabels_role_errors (fast skip flag : Bool) (st : FLState)
    (upd : Except PyErr ℚ) (p : FLPayload) (t : Trainer) :
    process_individual_payload .client fast st p = (.error (.runtimeError serverOnlyMsg), st) ∧
    combine_payloads .client fast skip upd st = (.error (.runtimeError serverOnlyMsg), st) ∧
    generate_client_payload .server flag t = (.error (.runtimeError clientOnlyMsg), t) := by
  refine ⟨rfl, rfl, rfl⟩

/-- C3: on a server-mode strategy, `process_individual_payload` returns
`False` exactly when the payload weight is `0`, and the rejecting call
returns the state unchanged (no mutation of the weight list, the buffer, or
the model). -/
theorem process_reject_iff_zero_weight (fast : Bool) (st : FLState) (p : FLPayload) :
    (p.weight = 0 → process_individual_payload .server fast st p = (.ok false, st)) ∧
    (p.weight ≠ 0 → (process_individual_payload .server fast st p).1 ≠ .ok false) := by
  constructor
  · intro h
    simp [process_individual_payload, h]
  · intro h
    cases fast <;> simp [process_individual_payload, h]

theorem process_reject_iff_zero_weight_witness :
    process_individual_payload .server false ⟨[], [], [("p", 1)]⟩ ⟨0, [2, 3]⟩ =
      (.ok false, ⟨[], [], [("p", 1)]⟩) :=
  (process_reject_iff_zero_weight false ⟨[], [], [("p", 1)]⟩ ⟨0, [2, 3]⟩).1 rfl

/-- C2 (code bug): with `fast_aggregation` enabled, accepting any non-zero
weight payload raises `TypeError`, because line 115 of `fedlabels.py` calls
`aggregate_gradients_inplace(worker_trainer.model, payload['gradients'])`
with 2 arguments while the function (line 218) has 5 required positional
parameters; the weight has already been appended when the call raises.  The
fast mode therefore cannot reproduce the buffered mode's aggregate. -/
theorem fast_aggregation_raises_typeerror :
    process_individual_payload .server true ⟨[], [], [("p", 0)]⟩ ⟨1, [2, 3]⟩ =
      (.error .typeError, ⟨[], [1], [("p", 0)]⟩) := by
  decide

/-- C5 (counterexample): calling `combine_payloads` with zero collected
payloads raises `IndexError` — from `self.client_parameters_stack[0]` on the
empty buffer at `fedlabels.py` line 189 — not an `AggregationError`; the
repository defines no `AggregationError` (see `PyErr`). -/
theorem combine_zero_payloads_counterexample :
    combine_payloads .server false false (.ok 0) ⟨[], [], [("p", 1)]⟩ =
      (.error .indexError, ⟨[], [], [("p", 1)]⟩) := by
  decide

/-- C5 (amended): whenever the payload buffer is empty — in particular, in a
round in which zero payloads were accepted — `combine_payloads` raises
`IndexError` (an exception, not a silent division by zero), leaving the state
as it was. -/
theorem combine_zero_payloads_raises_indexerror (fast skip : Bool)
    (upd : Except PyErr ℚ) (st : FLState) (h : st.client_parameters_stack = []) :
    combine_payloads .server fast skip upd st = (.error .indexError, st) := by
  simp [combine_payloads, aggregate_grads, h]

theorem combine_zero_payloads_raises_indexerror_witness :
    combine_payloads .server false false (.ok 0) ⟨[], [], [("p", 1)]⟩ =
      (.error .indexError, ⟨[], [], [("p", 1)]⟩) :=
  combine_zero_payloads_raises_indexerror false false (.ok 0) ⟨[], [], [("p", 1)]⟩ rfl

/-- C7 (counterexample): a round whose two accepted payloads have gradient
lists of different lengths (4 vs 2) per a 2-key model is combined without any
error: `combine_payloads` succeeds, silently aggregating the zip-truncated
tensors (the second client's unsupervised half, which is empty, simply never
contributes).  No `AggregationError` is raised — none exists in the code. -/
theorem combine_mismatch_counterexample :
    (combine_payloads .server false false (.ok 0)
        ⟨[[1, 2, 3, 4], [5, 6]], [1, 1], [("x", 0), ("y", 0)]⟩).1 = .ok (some 0) := by
  decide

/-- C7 (amended): `combine_payloads` performs no key-set validation.  For the
two-client family below — first payload of length 4, second of length 2,
model with 2 keys — the round completes successfully for every choice of
tensor values and weights, aggregating misaligned tensors; a mismatch in the
other direction raises `KeyError` (see the C6 counterexample), and in neither
case is an `AggregationError` raised. -/
theorem combine_mismatch_not_fatal (a b c d e f w1 w2 : ℚ) :
    (combine_payloads .server false false (.ok 0)
        ⟨[[a, b, c, d], [e, f]], [w1, w2], [("x", 0), ("y", 0)]⟩).1 = .ok (some 0) ∧
    (combine_payloads .server false false (.ok 0)
        ⟨[[a, b, c, d], [e, f]], [w1, w2], [("x", 0), ("y", 0)]⟩).2.client_parameters_stack
      = [] := by
  constructor <;>
    simp [combine_payloads, aggregate_grads, fold_sup, fold_unsup,
      aggregate_gradients_inplace, agg_pairs, dictSet, dictAdd, dictLookup,
      build_tmp_both, to_device, Except.bind, Except.map]

/-- C6 (counterexample): when the second payload's gradient list is longer
than the first's, the unsupervised fold hits a key absent from the running
aggregate and raises `KeyError` before reaching the cleanup at
`fedlabels.py` lines 212-214: after this `combine_payloads` call the payload
buffer is NOT empty. -/
theorem combine_buffers_not_cleared_counterexample :
    (combine_payloads .server false false (.ok 0)
        ⟨[[1, 2], [3, 4, 5, 6]], [1, 1], [("x", 0), ("y", 0)]⟩).2.client_parameters_stack =
      [[1, 2], [3, 4, 5, 6]] := by
  decide

/-- C8 (code bug): when the statement `server = server_setup(...)` — or any
earlier statement of the rank-0 `try` block — raises, the handler at
`e2e_trainer.py` lines 158-161 evaluates `server.terminate_workers()` with
the local name `server` still unbound, so the handler itself raises
`UnboundLocalError`: `terminate_workers` is never executed before an
exception propagates to the top-level caller. -/
theorem server_construct_failure_skips_terminate :
    run_worker_rank0 (some .serverConstruct) =
      { terminate_executed := false, propagated := some "UnboundLocalError" } := by
  rfl

/-- C10: on a client-mode strategy, `generate_client_payload` applies the
trainer mutators `reset_gradient_power` then `estimate_sufficient_stats`
exactly when `stats_on_smooth_grad` is set and otherwise returns the trainer
untouched; in both cases the payload is built purely from the reads
`num_samples`, `model.state_dict()` and `algo_computation`, with every tensor
moved to CPU (`to_device`): weight `1` if `num_samples == 0` else
`num_samples`, gradients = supervised `state_dict` values followed by
unsupervised `algo_computation` values. -/
theorem generate_payload_frame (t : Trainer) (flag : Bool) :
    generate_client_payload .client flag t =
      (.ok { weight := if t.num_samples = 0 then 1 else t.num_samples,
             gradients := t.state_dict.map (fun kv => to_device kv.2) ++
                          t.algo_computation.map (fun kv => to_device kv.2) },
       if flag then estimate_sufficient_stats (reset_gradient_power t) else t) := by
  cases flag <;>
    simp [generate_client_payload, estimate_sufficient_stats, reset_gradient_power]

/-- `_aggregate_gradients` either raises leaving the state exactly as it was
(the cleanup at `fedlabels.py` lines 212-214 is not reached), or succeeds
with both accumulators cleared. -/
theorem aggregate_grads_cases (fast : Bool) (st : FLState) :
    (∃ e, aggregate_grads fast st = (.error e, st)) ∨
    (∃ r, aggregate_grads fast st =
      (.ok r, { st with client_parameters_stack := [], client_weights := [] })) := by
  unfold aggregate_grads
  rcases hh : st.client_parameters_stack.head? with _ | c0
  · exact .inl ⟨.indexError, by simp⟩
  · simp only
    split
    · exact .inl ⟨.zeroDivisionError, rfl⟩
    · split
      · exact .inr ⟨_, rfl⟩
      · split
        · exact .inl ⟨_, rfl⟩
        · split
          · exact .inl ⟨_, rfl⟩
          · exact .inr ⟨_, rfl⟩

/-- C6 (amended): after any `combine_payloads` call in which the aggregation
step itself does not raise — including when the later model-update step
errors, and trivially when zero payloads were collected (the buffers were
already empty and the `IndexError` path returns them unchanged) — both
`client_parameters_stack` and `client_weights` are empty.  The cleanup does
NOT survive an exception raised inside the aggregation fold itself: see the
counterexample, where a `KeyError` leaves the buffers populated. -/
theorem combine_clears_buffers (fast skip : Bool) (upd : Except PyErr ℚ) (st : FLState)
    (h : (st.client_parameters_stack = [] ∧ st.client_weights = []) ∨
         (∃ r, (aggregate_grads fast st).1 = .ok r)) :
    (combine_payloads .server fast skip upd st).2.client_parameters_stack = [] ∧
    (combine_payloads .server fast skip upd st).2.client_weights = [] := by
  rcases aggregate_grads_cases fast st with ⟨e, he⟩ | ⟨r, hr⟩
  · rcases h with ⟨h1, h2⟩ | ⟨r, hr⟩
    · simp [combine_payloads, he, h1, h2]
    · rw [he] at hr
      simp at hr
  · obtain ⟨ws, tsup, tunsup⟩ := r
    unfold combine_payloads
    rw [hr]
    simp only [ne_eq, not_true_eq_false, if_false, reduceIte]
    cases hb : build_tmp_both tsup tunsup with
    | error e => simp
    | ok tb => cases skip <;> cases upd <;> simp

theorem combine_clears_buffers_witness :
    (combine_payloads .server false false (.error .typeError)
        ⟨[], [], [("p", 0)]⟩).2.client_parameters_stack = [] ∧
    (combine_payloads .server false false (.error .typeError)
        ⟨[], [], [("p", 0)]⟩).2.client_weights = [] :=
  combine_clears_buffers false false (.error .typeError) ⟨[], [], [("p", 0)]⟩
    (.inl ⟨rfl, rfl⟩)

/-! ## Closed form of the buffered FedLabels aggregation -/

theorem dictSet_cons_ne (k key : String) (v val : ℚ) (d : Dict) (h : k ≠ key) :
    dictSet ((k, v) :: d) key val = (k, v) :: dictSet d key val := by
  simp [dictSet, h]

theorem dictAdd_cons_ne (k key : String) (v val : ℚ) (d : Dict) (h : k ≠ key) :
    dictAdd ((k, v) :: d) key val = (dictAdd d key val).map (fun d2 => (k, v) :: d2) := by
  simp [dictAdd, h]

theorem dictLookup_cons_ne (k key : String) (v : ℚ) (d : Dict) (h : k ≠ key) :
    dictLookup ((k, v) :: d) key = dictLookup d key := by
  simp [dictLookup, h]

theorem agg_pairs_cons (first : Bool) (r : ℚ) (pairs : List (String × ℚ)) (k : String)
    (x : ℚ) (tmp : Dict) (h : ∀ p ∈ pairs, p.1 ≠ k) :
    agg_pairs first r pairs ((k, x) :: tmp) =
      (agg_pairs first r pairs tmp).map (fun d => (k, x) :: d) := by
  induction pairs generalizing tmp with
  | nil => rfl
  | cons p rest ih =>
    obtain ⟨k2, v⟩ := p
    have hk : k ≠ k2 := Ne.symm (h (k2, v) (List.mem_cons_self _ _))
    have hrest : ∀ q ∈ rest, q.1 ≠ k := fun q hq => h q (List.mem_cons_of_mem _ hq)
    cases first with
    | true =>
      simp only [agg_pairs, if_true]
      rw [dictSet_cons_ne _ _ _ _ _ hk]
      exact ih _ hrest
    | false =>
      simp only [agg_pairs, Bool.false_eq_true, if_false]
      rw [dictAdd_cons_ne _ _ _ _ _ hk]
      cases hda : dictAdd tmp k2 (to_device v * r) with
      | error e => simp [Except.map, Except.bind]
      | ok d2 =>
        simp only [Except.map, Except.bind]
        exact ih d2 hrest

theorem agg_pairs_first_nil (r : ℚ) (pairs : List (String × ℚ))
    (h : (pairs.map Prod.fst).Nodup) :
    agg_pairs true r pairs [] = .ok (pairs.map (fun p => (p.1, p.2 * r))) := by
  induction pairs with
  | nil => rfl
  | cons p rest ih =>
    obtain ⟨k, v⟩ := p
    simp only [List.map_cons, List.nodup_cons, List.mem_map] at h
    obtain ⟨hk, hrest⟩ := h
    have hmem : ∀ q ∈ rest, q.1 ≠ k := by
      intro q hq heq
      exact hk ⟨q, hq, heq⟩
    simp only [agg_pairs, if_true, dictSet]
    rw [agg_pairs_cons true r rest k (to_device v * r) [] hmem, ih hrest]
    simp [Except.map, to_device]

theorem agg_pairs_false_zip (r : ℚ) (keys : List String) (vl vs : List ℚ)
    (hnd : keys.Nodup) (hvl : vl.length = keys.length) (hvs : vs.length = keys.length) :
    agg_pairs false r (keys.zip vl) (keys.zip vs) =
      .ok (keys.zip (List.zipWith (fun s v => s + v * r) vs vl)) := by
  induction keys generalizing vl vs with
  | nil => simp [agg_pairs]
  | cons k ks ih =>
    cases vl with
    | nil => simp at hvl
    | cons v vl2 =>
      cases vs with
      | nil => simp at hvs
      | cons s vs2 =>
        simp only [List.nodup_cons] at hnd
        obtain ⟨hk, hnd2⟩ := hnd
        simp only [List.length_cons, Nat.succ.injEq] at hvl hvs
        have hmem : ∀ q ∈ ks.zip vl2, q.1 ≠ k := by
          rintro ⟨a, b⟩ hq heq
          exact hk (heq ▸ (List.of_mem_zip hq).1)
        have hadd : dictAdd ((k, s) :: ks.zip vs2) k (to_device v * r) =
            .ok ((k, s + to_device v * r) :: ks.zip vs2) := by
          simp [dictAdd]
        rw [List.zip_cons_cons, List.zip_cons_cons, List.zipWith_cons_cons,
          List.zip_cons_cons]
        simp only [agg_pairs, Bool.false_eq_true, if_false]
        rw [hadd]
        simp only [Except.bind]
        rw [agg_pairs_cons false r (ks.zip vl2) k (s + to_device v * r) (ks.zip vs2) hmem,
          ih vl2 vs2 hnd2 hvl hvs]
        simp [Except.map, to_device]

theorem aggregate_inplace_first (keys : List String) (c : List ℚ) (r : ℚ)
    (hnd : keys.Nodup) (hc : c.length = keys.length) :
    aggregate_gradients_inplace keys c true [] r =
      .ok (false, keys.zip (c.map (fun v => v * r))) := by
  unfold aggregate_gradients_inplace
  rw [agg_pairs_first_nil r (keys.zip c)
    (by rw [List.map_fst_zip _ _ (le_of_eq hc.symm)]; exact hnd)]
  have hmap : (keys.zip c).map (fun p => (p.1, p.2 * r)) = keys.zip (c.map (fun v => v * r)) := by
    rw [List.zip_map_right]
    exact List.map_congr_left (fun p _ => by cases p; rfl)
  rw [hmap]
  rfl

theorem aggregate_inplace_next (keys : List String) (c vs : List ℚ) (r : ℚ)
    (hnd : keys.Nodup) (hc : c.length = keys.length) (hvs : vs.length = keys.length) :
    aggregate_gradients_inplace keys c false (keys.zip vs) r =
      .ok (false, keys.zip (List.zipWith (fun s v => s + v * r) vs c)) := by
  unfold aggregate_gradients_inplace
  rw [agg_pairs_false_zip r keys c vs hnd hc hvs]
  rfl

theorem fold_sup_eq_fold_unsup (keys : List String) (r : ℚ) (cs : List (List ℚ)) :
    ∀ (first : Bool) (tmp : Dict),
      fold_sup keys r cs first tmp =
        fold_unsup keys cs (List.replicate cs.length r) first tmp := by
  induction cs with
  | nil => intro first tmp; rfl
  | cons c cs ih =>
    intro first tmp
    simp only [fold_sup, List.length_cons, List.replicate_succ, fold_unsup]
    cases aggregate_gradients_inplace keys c first tmp r with
    | error e => rfl
    | ok fd => simp only [Except.bind]; exact ih fd.1 fd.2

theorem fold_unsup_from (keys : List String) (hnd : keys.Nodup) :
    ∀ (cs : List (List ℚ)) (rs : List ℚ) (vs : List ℚ),
      (∀ c ∈ cs, c.length = keys.length) → cs.length ≤ rs.length →
      vs.length = keys.length →
      fold_unsup keys cs rs false (keys.zip vs) = .ok (keys.zip (accumWeighted cs rs vs)) := by
  intro cs
  induction cs with
  | nil => intro rs vs _ _ _; rfl
  | cons c cs ih =>
    intro rs vs hlen hle hvs
    cases rs with
    | nil => simp at hle
    | cons r rs =>
      simp only [fold_unsup, accumWeighted]
      rw [aggregate_inplace_next keys c vs r hnd (hlen c (List.mem_cons_self _ _)) hvs]
      simp only [Except.bind]
      exact ih rs _ (fun x hx => hlen x (List.mem_cons_of_mem _ hx))
        (Nat.le_of_succ_le_succ hle)
        (by rw [List.length_zipWith, hvs, hlen c (List.mem_cons_self _ _)]; simp)

theorem fold_unsup_closed (keys : List String) (hnd : keys.Nodup) (c : List ℚ)
    (cs : List (List ℚ)) (r : ℚ) (rs : List ℚ)
    (hc : c.length = keys.length) (hcs : ∀ x ∈ cs, x.length = keys.length)
    (hle : cs.length ≤ rs.length) :
    fold_unsup keys (c :: cs) (r :: rs) true [] =
      .ok (keys.zip (accumWeighted cs rs (c.map (fun v => v * r)))) := by
  simp only [fold_unsup]
  have hzip0 : ([] : Dict) = keys.zip ([] : List ℚ) := by simp
  rw [aggregate_inplace_first keys c r hnd hc]
  simp only [Except.bind]
  exact fold_unsup_from keys hnd cs rs _ hcs hle (by rw [List.length_map, hc])

theorem wsum_cons (c : List ℚ) (cs : List (List ℚ)) (r : ℚ) (rs : List ℚ) (i : Nat) :
    wsum (c :: cs) (r :: rs) i = c.getD i 0 * r + wsum cs rs i := by
  simp [wsum]

theorem wsumList_getD (cs : List (List ℚ)) (rs : List ℚ) (K i : Nat) (h : i < K) :
    (wsumList cs rs K).getD i 0 = wsum cs rs i := by
  have h2 : i < (wsumList cs rs K).length := by simp [wsumList, h]
  rw [List.getD_eq_getElem _ _ h2]
  simp [wsumList]

theorem map_mul_getD (c : List ℚ) (r : ℚ) (i : Nat) (h : i < c.length) :
    (c.map (fun v => v * r)).getD i 0 = c.getD i 0 * r := by
  have h2 : i < (c.map (fun v => v * r)).length := by simpa using h
  rw [List.getD_eq_getElem _ _ h2, List.getD_eq_getElem _ _ h, List.getElem_map]

theorem zipWith_getD (f : ℚ → ℚ → ℚ) (l1 l2 : List ℚ) (i : Nat)
    (h1 : i < l1.length) (h2 : i < l2.length) :
    (List.zipWith f l1 l2).getD i 0 = f (l1.getD i 0) (l2.getD i 0) := by
  have hl : i < (List.zipWith f l1 l2).length := by
    rw [List.length_zipWith]; exact lt_min h1 h2
  rw [List.getD_eq_getElem _ _ hl, List.getD_eq_getElem _ _ h1, List.getD_eq_getElem _ _ h2,
    List.getElem_zipWith]

theorem accumWeighted_length :
    ∀ (cs : List (List ℚ)) (rs : List ℚ) (vs : List ℚ),
      (∀ c ∈ cs, c.length = vs.length) →
      (accumWeighted cs rs vs).length = vs.length := by
  intro cs
  induction cs with
  | nil => intro rs vs _; rfl
  | cons c cs ih =>
    intro rs vs h
    cases rs with
    | nil => rfl
    | cons r rs =>
      simp only [accumWeighted]
      have hc := h c (List.mem_cons_self _ _)
      have hz : (List.zipWith (fun s v => s + v * r) vs c).length = vs.length := by
        rw [List.length_zipWith, hc]; simp
      rw [ih rs _ (fun x hx => by rw [hz]; exact h x (List.mem_cons_of_mem _ hx)), hz]

theorem accumWeighted_getD :
    ∀ (cs : List (List ℚ)) (rs : List ℚ) (vs : List ℚ) (i : Nat),
      cs.length ≤ rs.length → (∀ c ∈ cs, c.length = vs.length) → i < vs.length →
      (accumWeighted cs rs vs).getD i 0 = vs.getD i 0 + wsum cs rs i := by
  intro cs
  induction cs with
  | nil => intro rs vs i _ _ _; simp [accumWeighted, wsum]
  | cons c cs ih =>
    intro rs vs i hle h hi
    cases rs with
    | nil => simp at hle
    | cons r rs =>
      simp only [accumWeighted]
      have hc := h c (List.mem_cons_self _ _)
      have hz : (List.zipWith (fun s v => s + v * r) vs c).length = vs.length := by
        rw [List.length_zipWith, hc]; simp
      rw [ih rs _ i (Nat.le_of_succ_le_succ hle)
        (fun x hx => by rw [hz]; exact h x (List.mem_cons_of_mem _ hx)) (by rw [hz]; exact hi)]
      rw [zipWith_getD _ _ _ _ hi (hc ▸ hi), wsum_cons]
      ring

theorem accumWeighted_eq_wsumList (K : Nat) (c : List ℚ) (cs : List (List ℚ)) (r : ℚ)
    (rs : List ℚ) (hc : c.length = K) (hcs : ∀ x ∈ cs, x.length = K)
    (hle : cs.length ≤ rs.length) :
    accumWeighted cs rs (c.map (fun v => v * r)) = wsumList (c :: cs) (r :: rs) K := by
  have hlenmap : ∀ x ∈ cs, x.length = (c.map (fun v => v * r)).length := by
    intro x hx
    rw [List.length_map, hc]
    exact hcs x hx
  apply List.ext_getElem
  · rw [accumWeighted_length cs rs _ hlenmap, List.length_map, hc]
    simp [wsumList]
  · intro n h1 h2
    rw [← List.getD_eq_getElem _ 0 h1, ← List.getD_eq_getElem _ 0 h2]
    have hn : n < K := by
      rw [accumWeighted_length cs rs _ hlenmap, List.length_map, hc] at h1
      exact h1
    rw [accumWeighted_getD cs rs _ n hle hlenmap (by rw [List.length_map, hc]; exact hn),
      wsumList_getD _ _ _ _ hn, wsum_cons, map_mul_getD c r n (by rw [hc]; exact hn)]

theorem fold_unsup_canonical (keys : List String) (hnd : keys.Nodup)
    (cs : List (List ℚ)) (rs : List ℚ) (hne : cs ≠ [])
    (hcs : ∀ x ∈ cs, x.length = keys.length) (hle : cs.length ≤ rs.length) :
    fold_unsup keys cs rs true [] = .ok (keys.zip (wsumList cs rs keys.length)) := by
  cases cs with
  | nil => exact absurd rfl hne
  | cons c cs2 =>
    cases rs with
    | nil => simp at hle
    | cons r rs2 =>
      rw [fold_unsup_closed keys hnd c cs2 r rs2 (hcs c (List.mem_cons_self _ _))
        (fun x hx => hcs x (List.mem_cons_of_mem _ hx)) (Nat.le_of_succ_le_succ hle)]
      rw [accumWeighted_eq_wsumList keys.length c cs2 r rs2 (hcs c (List.mem_cons_self _ _))
        (fun x hx => hcs x (List.mem_cons_of_mem _ hx)) (Nat.le_of_succ_le_succ hle)]

theorem fold_sup_canonical (keys : List String) (hnd : keys.Nodup)
    (cs : List (List ℚ)) (r : ℚ) (hne : cs ≠ [])
    (hcs : ∀ x ∈ cs, x.length = keys.length) :
    fold_sup keys r cs true [] =
      .ok (keys.zip (wsumList cs (List.replicate cs.length r) keys.length)) := by
  rw [fold_sup_eq_fold_unsup keys r cs true []]
  exact fold_unsup_canonical keys hnd cs _ hne hcs (by simp)

theorem build_tmp_both_cons (k : String) (a : ℚ) (sup unsup : Dict)
    (h : ∀ q ∈ unsup, q.1 ≠ k) :
    build_tmp_both ((k, a) :: sup) unsup = build_tmp_both sup unsup := by
  induction unsup with
  | nil => rfl
  | cons q rest ih =>
    obtain ⟨k2, uv⟩ := q
    have hk : k ≠ k2 := Ne.symm (h (k2, uv) (List.mem_cons_self _ _))
    have hrest := fun q hq => h q (List.mem_cons_of_mem _ hq)
    cases hl : dictLookup sup k2 with
    | none => simp only [build_tmp_both, dictLookup_cons_ne _ _ _ _ hk, hl]
    | some sv => simp only [build_tmp_both, dictLookup_cons_ne _ _ _ _ hk, hl, ih hrest]

theorem build_tmp_both_zip :
    ∀ (keys : List String), keys.Nodup →
    ∀ (A B : List ℚ), A.length = keys.length → B.length = keys.length →
      build_tmp_both (keys.zip A) (keys.zip B) =
        .ok (keys.zip (List.zipWith (fun a b => a / 2 + b / 2) A B)) := by
  intro keys
  induction keys with
  | nil => intro _ A B _ _; simp [build_tmp_both]
  | cons k ks ih =>
    intro hnd A B hA hB
    obtain ⟨hk, hnd2⟩ := List.nodup_cons.mp hnd
    cases A with
    | nil => simp at hA
    | cons a A2 =>
      cases B with
      | nil => simp at hB
      | cons b B2 =>
        simp only [List.zip_cons_cons, List.zipWith_cons_cons, build_tmp_both]
        rw [show dictLookup ((k, a) :: ks.zip A2) k = some a from by simp [dictLookup]]
        have hmem : ∀ q ∈ ks.zip B2, q.1 ≠ k := by
          rintro ⟨x, y⟩ hq heq
          exact hk (heq ▸ (List.of_mem_zip hq).1)
        show Except.map (fun d => (k, a / 2 + b / 2) :: d)
            (build_tmp_both ((k, a) :: ks.zip A2) (ks.zip B2)) = _
        rw [build_tmp_both_cons k a (ks.zip A2) (ks.zip B2) hmem,
          ih hnd2 A2 B2 (by simpa using hA) (by simpa using hB)]
        rfl

theorem aggregate_grads_closed (model0 : Dict) (gs : List (List ℚ)) (ws : List ℚ)
    (hnd : (model0.map Prod.fst).Nodup) (hne : gs ≠ [])
    (hlen : gs.length = ws.length)
    (hg : ∀ g ∈ gs, g.length = 2 * model0.length) :
    aggregate_grads false ⟨gs, ws, model0⟩ =
      (.ok (ws.sum,
        (model0.map Prod.fst).zip
          (wsumList (gs.map (List.take model0.length))
            (List.replicate gs.length (1 / (ws.length : ℚ))) model0.length),
        (model0.map Prod.fst).zip
          (wsumList (gs.map (List.drop model0.length))
            (ws.map (fun w => w / ws.sum)) model0.length)),
       ⟨[], [], model0⟩) := by
  cases gs with
  | nil => exact absurd rfl hne
  | cons g0 gs2 =>
    cases ws with
    | nil => simp at hlen
    | cons w0 ws2 =>
      have hg0 := hg g0 (List.mem_cons_self _ _)
      have hslice : g0.length / 2 = model0.length := by omega
      have hkeys : (model0.map Prod.fst).length = model0.length := List.length_map _ _
      unfold aggregate_grads
      simp only [List.head?_cons]
      rw [hslice]
      rw [if_neg (by simp : ¬((w0 :: ws2).length = 0))]
      simp only [Bool.false_eq_true, if_false]
      rw [fold_sup_canonical (model0.map Prod.fst) hnd
        ((g0 :: gs2).map (List.take model0.length)) (1 / (((w0 :: ws2).length : ℕ) : ℚ))
        (by simp)
        (by
          intro x hx
          obtain ⟨g, hgmem, rfl⟩ := List.mem_map.mp hx
          rw [List.length_take, hg g hgmem, hkeys]
          omega)]
      rw [fold_unsup_canonical (model0.map Prod.fst) hnd
        ((g0 :: gs2).map (List.drop model0.length))
        ((w0 :: ws2).map (fun w => w / (w0 :: ws2).sum))
        (by simp)
        (by
          intro x hx
          obtain ⟨g, hgmem, rfl⟩ := List.mem_map.mp hx
          rw [List.length_drop, hg g hgmem, hkeys]
          omega)
        (by simp only [List.length_map]; exact le_of_eq hlen)]
      simp only [List.length_map, hkeys]

theorem processAll_buffered :
    ∀ (ps : List FLPayload) (st : FLState), (∀ p ∈ ps, p.weight ≠ 0) →
      processAll .server false st ps =
        ⟨st.client_parameters_stack ++ ps.map FLPayload.gradients,
         st.client_weights ++ ps.map FLPayload.weight, st.model⟩ := by
  intro ps
  induction ps with
  | nil => intro st _; simp [processAll]
  | cons p ps ih =>
    intro st h
    have hp := h p (List.mem_cons_self _ _)
    simp only [processAll, process_individual_payload]
    rw [if_neg (by simp)]
    rw [if_neg hp]
    simp only [Bool.false_eq_true, if_false]
    rw [ih _ (fun q hq => h q (List.mem_cons_of_mem _ hq))]
    simp

theorem zipWith_wsumList (ps : List FLPayload) (K : Nat) :
    List.zipWith (fun a b => a / 2 + b / 2)
      (wsumList ((ps.map FLPayload.gradients).map (List.take K))
        (List.replicate (ps.map FLPayload.gradients).length
          (1 / (((ps.map FLPayload.weight).length : ℕ) : ℚ))) K)
      (wsumList ((ps.map FLPayload.gradients).map (List.drop K))
        ((ps.map FLPayload.weight).map
          (fun w => w / (ps.map FLPayload.weight).sum)) K) =
    (List.range K).map (fun i => fedlabelsValue ps K i) := by
  apply List.ext_getElem
  · simp [wsumList]
  · intro n h1 h2
    rw [List.getElem_zipWith]
    simp only [wsumList, List.getElem_map, List.getElem_range, fedlabelsValue,
      List.map_map, List.length_map]
    rfl

theorem runRound_closed (model0 : Dict) (ps : List FLPayload) (upd : Except PyErr ℚ)
    (hnd : (model0.map Prod.fst).Nodup) (hne : ps ≠ [])
    (hw : ∀ p ∈ ps, p.weight ≠ 0)
    (hg : ∀ p ∈ ps, p.gradients.length = 2 * model0.length) :
    runRound false upd model0 ps =
      ((match upd with | .error e => .error e | .ok l => .ok (some l)),
       ⟨[], [],
        (model0.map Prod.fst).zip
          ((List.range model0.length).map (fun i => fedlabelsValue ps model0.length i))⟩) := by
  unfold runRound
  rw [processAll_buffered ps ⟨[], [], model0⟩ hw]
  simp only [List.nil_append]
  unfold combine_payloads
  rw [if_neg (by simp)]
  rw [aggregate_grads_closed model0 (ps.map FLPayload.gradients) (ps.map FLPayload.weight)
    hnd (by simpa using hne) (by simp)
    (by intro g hgm; obtain ⟨p, hp, rfl⟩ := List.mem_map.mp hgm; exact hg p hp)]
  dsimp only
  rw [build_tmp_both_zip (model0.map Prod.fst) hnd _ _ (by simp [wsumList]) (by simp [wsumList])]
  dsimp only
  rw [zipWith_wsumList ps model0.length]
  cases upd <;> rfl

theorem wsum_replicate (cs : List (List ℚ)) (r : ℚ) (i : Nat) :
    wsum cs (List.replicate cs.length r) i = (cs.map (fun c => c.getD i 0)).sum * r := by
  induction cs with
  | nil => simp [wsum]
  | cons c cs ih =>
    simp only [List.length_cons, List.replicate_succ, wsum_cons, ih, List.map_cons,
      List.sum_cons]
    ring

theorem wsum_map_map (ps : List FLPayload) (f : FLPayload → List ℚ) (g : FLPayload → ℚ)
    (i : Nat) :
    wsum (ps.map f) (ps.map g) i = (ps.map (fun p => (f p).getD i 0 * g p)).sum := by
  unfold wsum
  rw [List.zip_map' f g ps, List.map_map]
  rfl

theorem range_map_getD (f : Nat → ℚ) (K i : Nat) (h : i < K) :
    ((List.range K).map f).getD i 0 = f i := by
  have h2 : i < ((List.range K).map f).length := by simpa using h
  rw [List.getD_eq_getElem _ _ h2]
  simp

theorem dictLookup_zip :
    ∀ (keys : List String) (A : List ℚ), keys.Nodup → A.length = keys.length →
      ∀ i, i < keys.length →
      dictLookup (keys.zip A) (keys.getD i "") = some (A.getD i 0) := by
  intro keys
  induction keys with
  | nil => intro A _ _ i hi; simp at hi
  | cons k ks ih =>
    intro A hnd hA i hi
    cases A with
    | nil => simp at hA
    | cons a A2 =>
      obtain ⟨hk, hnd2⟩ := List.nodup_cons.mp hnd
      cases i with
      | zero => simp [dictLookup]
      | succ n =>
        have hn : n < ks.length := Nat.lt_of_succ_lt_succ hi
        have hkey : (k :: ks).getD (n + 1) "" = ks.getD n "" := rfl
        rw [hkey, List.zip_cons_cons, dictLookup_cons_ne k _ a _ ?hne]
        · exact ih A2 hnd2 (by simpa using hA) n hn
        case hne =>
          intro heq
          have hmem : ks.getD n "" ∈ ks := by
            rw [List.getD_eq_getElem _ _ hn]
            exact List.getElem_mem hn
          exact hk (heq ▸ hmem)

/-- C1: for a server-mode FedLabels strategy with buffered (non-fast)
aggregation, processing any non-empty list of accepted payloads (non-zero
weights, each gradient list of length `2K` over a `K`-key model) and then
combining loads into the model, at every parameter key, the value
`(1/2)·(Σᵢ sᵢ[k]/n) + (1/2)·Σᵢ (wᵢ/W)·uᵢ[k]`, where `sᵢ`/`uᵢ` are the
supervised/unsupervised halves (first/second half of the gradient list),
`n` the number of accepted payloads and `W` the sum of their weights.  The
witness instantiates the 2-client scenario with weights `[1, 3]`, supervised
values `[4, 8]`, unsupervised values `[10, 20]`, whose loaded value is
`47/4 = 11.75`. -/
theorem fedlabels_combine_loads_formula (model0 : Dict) (ps : List FLPayload)
    (hnd : (model0.map Prod.fst).Nodup) (hne : ps ≠ [])
    (hw : ∀ p ∈ ps, p.weight ≠ 0)
    (hW : (ps.map FLPayload.weight).sum ≠ 0)
    (hg : ∀ p ∈ ps, p.gradients.length = 2 * model0.length)
    (i : Nat) (hi : i < model0.length) :
    dictLookup (runRound false (.ok 0) model0 ps).2.model
        ((model0.map Prod.fst).getD i "") =
      some ((1 / 2) * ((ps.map (fun p => (p.gradients.take model0.length).getD i 0)).sum
            / (ps.length : ℚ))
        + (1 / 2) * ((ps.map (fun p =>
            (p.weight / (ps.map FLPayload.weight).sum)
              * (p.gradients.drop model0.length).getD i 0)).sum)) := by
  rw [runRound_closed model0 ps (.ok 0) hnd hne hw hg]
  dsimp only
  rw [dictLookup_zip (model0.map Prod.fst)
    ((List.range model0.length).map (fun j => fedlabelsValue ps model0.length j))
    hnd (by simp) i (by simpa using hi)]
  rw [range_map_getD _ _ _ hi]
  unfold fedlabelsValue
  have h1 := wsum_replicate (ps.map (fun p => p.gradients.take model0.length))
    (1 / (ps.length : ℚ)) i
  rw [List.length_map] at h1
  rw [h1, wsum_map_map ps (fun p => p.gradients.drop model0.length)
    (fun p => p.weight / (ps.map FLPayload.weight).sum) i]
  rw [List.map_map]
  have hcomm : (ps.map (fun p =>
      (p.gradients.drop model0.length).getD i 0
        * (p.weight / (ps.map FLPayload.weight).sum))).sum
      = (ps.map (fun p =>
      (p.weight / (ps.map FLPayload.weight).sum)
        * (p.gradients.drop model0.length).getD i 0)).sum := by
    congr 1
    exact List.map_congr_left (fun p _ => mul_comm _ _)
  rw [hcomm]
  have hcomp : ((fun c => List.getD c i 0) ∘ fun p => p.gradients.take model0.length)
      = fun p : FLPayload => (p.gradients.take model0.length).getD i 0 := rfl
  rw [hcomp]
  congr 1
  ring

theorem fedlabels_combine_loads_formula_witness :
    dictLookup (runRound false (.ok 0) [("p", (0 : ℚ))]
        [⟨1, [4, 10]⟩, ⟨3, [8, 20]⟩]).2.model "p" = some (47 / 4) := by
  have h := fedlabels_combine_loads_formula [("p", (0 : ℚ))]
    [⟨1, [4, 10]⟩, ⟨3, [8, 20]⟩] (by decide) (by decide) (by decide)
    (by norm_num) (by decide) 0 (by decide)
  have hkey : (List.map Prod.fst [("p", (0 : ℚ))]).getD 0 "" = "p" := rfl
  rw [hkey] at h
  rw [h]
  norm_num

/-- C9: in buffered mode, over exact arithmetic, processing any permutation
of a list of accepted payloads and then combining loads exactly the same
aggregate into the model at every key as the original order: the fold is a
weighted sum, and the number of clients, the weight sum and the per-key sums
are invariant under permutation of the payload list. -/
theorem buffered_aggregate_perm_invariant (model0 : Dict) (ps1 ps2 : List FLPayload)
    (upd : Except PyErr ℚ) (hperm : ps1.Perm ps2)
    (hnd : (model0.map Prod.fst).Nodup) (hne : ps1 ≠ [])
    (hw : ∀ p ∈ ps1, p.weight ≠ 0)
    (hg : ∀ p ∈ ps1, p.gradients.length = 2 * model0.length) :
    (runRound false upd model0 ps1).2.model = (runRound false upd model0 ps2).2.model := by
  have hne2 : ps2 ≠ [] := by
    intro hcon
    rw [hcon] at hperm
    exact hne hperm.eq_nil
  have hw2 : ∀ p ∈ ps2, p.weight ≠ 0 := fun p hp => hw p (hperm.mem_iff.mpr hp)
  have hg2 : ∀ p ∈ ps2, p.gradients.length = 2 * model0.length :=
    fun p hp => hg p (hperm.mem_iff.mpr hp)
  rw [runRound_closed model0 ps1 upd hnd hne hw hg,
    runRound_closed model0 ps2 upd hnd hne2 hw2 hg2]
  dsimp only
  congr 1
  apply List.map_congr_left
  intro i _
  unfold fedlabelsValue
  have hlen := hperm.length_eq
  have hWeq : (ps1.map FLPayload.weight).sum = (ps2.map FLPayload.weight).sum :=
    (hperm.map FLPayload.weight).sum_eq
  have h1 := wsum_replicate (ps1.map (fun p => p.gradients.take model0.length))
    (1 / (ps1.length : ℚ)) i
  rw [List.length_map] at h1
  have h2 := wsum_replicate (ps2.map (fun p => p.gradients.take model0.length))
    (1 / (ps2.length : ℚ)) i
  rw [List.length_map] at h2
  rw [h1, h2, wsum_map_map ps1 _ _ i, wsum_map_map ps2 _ _ i, hlen, hWeq,
    ((hperm.map (fun p => p.gradients.take model0.length)).map
      (fun c => c.getD i 0)).sum_eq,
    (hperm.map (fun p => (p.gradients.drop model0.length).getD i 0 *
      (p.weight / (ps2.map FLPayload.weight).sum))).sum_eq]

theorem buffered_aggregate_perm_invariant_witness :
    (runRound false (.ok 0) [("p", (0 : ℚ))] [⟨1, [4, 10]⟩, ⟨3, [8, 20]⟩]).2.model =
    (runRound false (.ok 0) [("p", (0 : ℚ))] [⟨3, [8, 20]⟩, ⟨1, [4, 10]⟩]).2.model :=
  buffered_aggregate_perm_invariant [("p", (0 : ℚ))] [⟨1, [4, 10]⟩, ⟨3, [8, 20]⟩]
    [⟨3, [8, 20]⟩, ⟨1, [4, 10]⟩] (.ok 0)
    (by decide) (by decide) (by decide) (by decide) (by decide)
